import Mathlib

/-
Verification of the IMLE sample-then-train loop of
Masked-Multi-modal-Representation-Densities (TrainIMLE.py, Blocks.py).

The Python is embedded shallowly: tensors become lists, per-example losses
become abstract functions into the rationals (the model is a black box for
this code, so the loss of a latent on an example is an uninterpreted
deterministic function), the +infinity initialization of the tracked
minimum loss becomes the top element of WithTop Rat, and the DataLoader's
batching with drop_last=False becomes chunking of a list.
-/

/- ===================== Shared list machinery ===================== -/

/-- The stream of batches a DataLoader with batch size `bs` and
`drop_last=False` yields from a dataset list: chunks of size `bs`, the last
one possibly smaller. -/
def chunksOf (bs : Nat) (l : List α) : List (List α) :=
  if h : bs = 0 ∨ l.isEmpty then [] else l.take bs :: chunksOf bs (l.drop bs)
termination_by l.length
decreasing_by
  simp only [List.isEmpty_iff, not_or] at h
  have hl : 0 < l.length := List.length_pos.mpr h.2
  simp only [List.length_drop]
  omega

theorem chunksOf_nil (bs : Nat) : chunksOf bs ([] : List α) = [] := by
  rw [chunksOf]
  simp

theorem chunksOf_cons (bs : Nat) (l : List α) (hbs : 0 < bs) (hl : l ≠ []) :
    chunksOf bs l = l.take bs :: chunksOf bs (l.drop bs) := by
  rw [chunksOf]
  simp [hl, Nat.pos_iff_ne_zero.mp hbs]

/-- Concatenating the DataLoader's batch stream recovers the dataset. -/
theorem chunksOf_flatten (bs : Nat) (hbs : 0 < bs) (l : List α) :
    (chunksOf bs l).flatten = l := by
  by_cases hl : l = []
  · subst hl
    rw [chunksOf_nil]
    rfl
  · rw [chunksOf_cons bs l hbs hl]
    have ih := chunksOf_flatten bs hbs (l.drop bs)
    simp [ih]
termination_by l.length
decreasing_by
  have hp : 0 < l.length := List.length_pos.mpr hl
  simp only [List.length_drop]
  omega

theorem chunksOf_map_flatten (bs : Nat) (hbs : 0 < bs) (g : α → β) (l : List α) :
    ((chunksOf bs l).map (List.map g)).flatten = l.map g := by
  rw [← List.map_flatten, chunksOf_flatten bs hbs l]

/-- `l.getD` on the left part of an append. -/
theorem getD_append_left (l₁ l₂ : List α) (i : Nat) (d : α) (h : i < l₁.length) :
    (l₁ ++ l₂).getD i d = l₁.getD i d := by
  induction l₁ generalizing i with
  | nil => simp at h
  | cons a t ih =>
      cases i with
      | zero => rfl
      | succ j =>
          simp only [List.length_cons] at h
          simpa using ih j (by omega)

/-- `l.getD` on the right part of an append. -/
theorem getD_append_right (l₁ l₂ : List α) (i : Nat) (d : α) (h : l₁.length ≤ i) :
    (l₁ ++ l₂).getD i d = l₂.getD (i - l₁.length) d := by
  induction l₁ generalizing i with
  | nil => simp
  | cons a t ih =>
      cases i with
      | zero => simp at h
      | succ j =>
          simp only [List.length_cons] at h ⊢
          simpa using ih j (by omega)

theorem getD_take (l : List α) (n i : Nat) (d : α) (h : i < n) :
    (l.take n).getD i d = l.getD i d := by
  induction l generalizing n i with
  | nil => simp
  | cons a t ih =>
      cases n with
      | zero => omega
      | succ m =>
          cases i with
          | zero => rfl
          | succ j => simpa using ih m j (by omega)

theorem getD_drop (l : List α) (n i : Nat) (d : α) :
    (l.drop n).getD i d = l.getD (n + i) d := by
  induction l generalizing n with
  | nil => simp
  | cons a t ih =>
      cases n with
      | zero => simp
      | succ m => simpa [Nat.succ_add] using ih m

theorem getD_zip_zip (a b c : List Int) (i : Nat)
    (ha : i < a.length) (hb : b.length = a.length) (hc : c.length = a.length) :
    (a.zip (b.zip c)).getD i (0, (0, 0)) = (a.getD i 0, (b.getD i 0, c.getD i 0)) := by
  induction a generalizing b c i with
  | nil => simp at ha
  | cons x t ih =>
      cases b with
      | nil => simp at hb
      | cons y u =>
          cases c with
          | nil => simp at hc
          | cons z v =>
              cases i with
              | zero => rfl
              | succ j =>
                  simp only [List.length_cons] at ha hb hc
                  simpa using ih u v j (by omega) (by omega) (by omega)

/- ===================== C1: epoch gradient-step count ===================== -/

/-- `len(loader)` for a DataLoader over the derived dataset of `ex_per_epoch`
examples with batch size `mini_bs` and `drop_last=False`: the ceiling of
`ex_per_epoch / mini_bs` (TrainIMLE.py lines 357-365). -/
def batches_per_pass (ex_per_epoch mini_bs : Nat) : Nat :=
  (ex_per_epoch + mini_bs - 1) / mini_bs

/-- `num_passes_over_loader = max(1, args.ipe // len(loader))`
(TrainIMLE.py line 365). -/
def num_passes_over_loader (ipe bpp : Nat) : Nat := max 1 (ipe / bpp)

/-- `gradient_steps = num_passes_over_loader * len(loader)`
(TrainIMLE.py line 367): the number of minibatches the chained loader
yields, hence the number of optimizer steps taken in the epoch. -/
def gradient_steps (ipe ex_per_epoch mini_bs : Nat) : Nat :=
  num_passes_over_loader ipe (batches_per_pass ex_per_epoch mini_bs) *
    batches_per_pass ex_per_epoch mini_bs

theorem batches_per_pass_pos (ex_per_epoch mini_bs : Nat)
    (hex : 0 < ex_per_epoch) (hmb : 0 < mini_bs) :
    0 < batches_per_pass ex_per_epoch mini_bs := by
  unfold batches_per_pass
  exact Nat.div_pos (by omega) hmb

/-- C1 counterexample: with `ipe = 10`, `ex_per_epoch = 30`, `mini_bs = 10`
there are 3 batches per pass, `max(1, 10 // 3) = 3` passes, and only
`9 < 10` gradient steps — the epoch silently performs fewer than `ipe`
gradient steps. -/
theorem gradient_steps_can_fall_short_of_ipe :
    gradient_steps 10 30 10 = 9 ∧ ¬ (10 ≤ gradient_steps 10 30 10) := by
  constructor
  · rfl
  · decide

/-- C1 amended: for all positive `ipe`, `ex_per_epoch`, `mini_bs`, the epoch
performs a positive number of gradient steps (never zero), always more than
`ipe - batches_per_pass` of them, and at least `ipe` of them whenever
`batches_per_pass` divides `ipe` or exceeds `ipe` — but not at least `ipe`
in general, by the counterexample. -/
theorem gradient_steps_bounds (ipe ex_per_epoch mini_bs : Nat)
    (hipe : 0 < ipe) (hex : 0 < ex_per_epoch) (hmb : 0 < mini_bs) :
    0 < gradient_steps ipe ex_per_epoch mini_bs ∧
    ipe - batches_per_pass ex_per_epoch mini_bs <
      gradient_steps ipe ex_per_epoch mini_bs ∧
    (batches_per_pass ex_per_epoch mini_bs ∣ ipe →
      ipe ≤ gradient_steps ipe ex_per_epoch mini_bs) ∧
    (ipe ≤ batches_per_pass ex_per_epoch mini_bs →
      ipe ≤ gradient_steps ipe ex_per_epoch mini_bs) := by
  have hbpp : 0 < batches_per_pass ex_per_epoch mini_bs :=
    batches_per_pass_pos ex_per_epoch mini_bs hex hmb
  set b := batches_per_pass ex_per_epoch mini_bs with hb
  have hmlt : ipe % b < b := Nat.mod_lt ipe hbpp
  unfold gradient_steps num_passes_over_loader
  rw [← hb]
  by_cases hq : ipe / b = 0
  · have hlt : ipe < b := by
      rcases Nat.lt_or_ge ipe b with h | h
      · exact h
      · exfalso
        have := (Nat.one_le_div_iff hbpp).mpr h
        omega
    have hmax : max 1 (ipe / b) = 1 := by
      rw [hq]
      exact Nat.max_eq_left (Nat.zero_le 1)
    rw [hmax, Nat.one_mul]
    refine ⟨by omega, by omega, ?_, fun h => h⟩
    intro hdvd
    have hle := Nat.le_of_dvd hipe hdvd
    omega
  · have hq1 : 1 ≤ ipe / b := Nat.one_le_iff_ne_zero.mpr hq
    have hble : b ≤ ipe := (Nat.one_le_div_iff hbpp).mp hq1
    rw [Nat.max_eq_right hq1]
    have hdm : ipe / b * b + ipe % b = ipe := by
      rw [Nat.mul_comm]
      exact Nat.div_add_mod ipe b
    refine ⟨Nat.mul_pos hq1 hbpp, by omega, ?_, ?_⟩
    · intro hdvd
      rw [Nat.div_mul_cancel hdvd]
    · intro hle
      have hEq : ipe = b := Nat.le_antisymm hle hble
      rw [hEq, Nat.div_self hbpp, Nat.one_mul]

/-- Witness for the amended C1 at `ipe = 10`, `ex_per_epoch = 50`,
`mini_bs = 10`: 5 batches per pass divide `ipe`, so the epoch runs
exactly `ipe = 10` positive gradient steps. -/
theorem gradient_steps_bounds_witness :
    0 < gradient_steps 10 50 10 ∧ 10 ≤ gradient_steps 10 50 10 :=
  ⟨(gradient_steps_bounds 10 50 10 (by decide) (by decide) (by decide)).1,
   (gradient_steps_bounds 10 50 10 (by decide) (by decide) (by decide)).2.2.1
     (by decide)⟩

/- ===================== C6: get_args clamps sp ===================== -/

/-- The `--sp`/`--ns` reconciliation in `get_args` (TrainIMLE.py lines
282-285): when `sp > ns` it warns (second component `true`) and sets `sp`
to `ns`; otherwise `sp` is kept and no warning is emitted. No branch
raises. -/
def get_args_sp (ns sp : Int) : Int × Bool :=
  if ns < sp then (ns, true) else (sp, false)

/-- C6: argument processing never errors on `sp > ns`: it warns and clamps
`sp` to `ns`, leaves a compliant `sp` untouched, and in all cases the `sp`
in effect after `get_args` satisfies `sp ≤ ns`. -/
theorem get_args_sp_clamps (ns sp : Int) :
    (get_args_sp ns sp).1 ≤ ns ∧
    (ns < sp → get_args_sp ns sp = (ns, true)) ∧
    (sp ≤ ns → get_args_sp ns sp = (sp, false)) := by
  unfold get_args_sp
  by_cases h : ns < sp
  · simp [h]
  · simp [h]
    omega

/-- Witness for C6 at `ns = 3`, `sp = 5`: the returned `sp` is clamped to
`3 ≤ 3` with the warning flag set. -/
theorem get_args_sp_clamps_witness :
    (get_args_sp 3 5).1 ≤ 3 ∧ get_args_sp 3 5 = (3, true) :=
  ⟨(get_args_sp_clamps 3 5).1, (get_args_sp_clamps 3 5).2.1 (by decide)⟩

/- ===================== C7: checkpoint record ===================== -/

/-- The single record passed to `torch.save` at the end of each epoch
(TrainIMLE.py lines 415-423), as the ordered key/value list of the Python
dict literal. `V` abstracts the serialized payloads. -/
def checkpoint_record (V : Type) (model encoder_kwargs idx2v_method
    optimizer scheduler args last_epoch kkm : V) : List (String × V) :=
  [("model", model),
   ("encoder_kwargs", encoder_kwargs),
   ("idx2v_method", idx2v_method),
   ("optimizer", optimizer),
   ("scheduler", scheduler),
   ("args", args),
   ("last_epoch", last_epoch),
   ("kkm", kkm)]

/-- The file the epoch's record is saved to, inside the run's model folder
(TrainIMLE.py line 423): `<epoch+1>.pt`. -/
def checkpoint_path (folder : String) (epoch : Nat) : String :=
  folder ++ "/" ++ toString (epoch + 1) ++ ".pt"

/-- C7: the per-epoch checkpoint contains exactly the model weights, the
two architecture-reconstruction keyword mappings, the optimizer state, the
scheduler object, the run configuration, the last completed epoch index and
the Index Pool state — no scaler key is present — and it is written to
`<epoch+1>.pt` in the run's model folder. -/
theorem checkpoint_record_contents (V : Type) (model encoder_kwargs
    idx2v_method optimizer scheduler args last_epoch kkm : V)
    (folder : String) (epoch : Nat) :
    (checkpoint_record V model encoder_kwargs idx2v_method optimizer
        scheduler args last_epoch kkm).map Prod.fst =
      ["model", "encoder_kwargs", "idx2v_method", "optimizer", "scheduler",
       "args", "last_epoch", "kkm"] ∧
    ¬ ("scaler" ∈ (checkpoint_record V model encoder_kwargs idx2v_method
        optimizer scheduler args last_epoch kkm).map Prod.fst) ∧
    checkpoint_path folder epoch = folder ++ "/" ++ toString (epoch + 1) ++ ".pt" := by
  refine ⟨rfl, ?_, rfl⟩
  intro hmem
  simp [checkpoint_record] at hmem

/- ============ C2-C5: candidate selection (get_image_latent_dataset) ============ -/

/-- `torch.min(losses, dim=1)` over one example's row of `sp` candidate
latents (TrainIMLE.py line 110): the first candidate attaining the minimal
loss under the example's loss function `f`. Returns `none` on an empty row
(which the code never produces for `sp > 0`). -/
def first_min (f : Int → Rat) : List Int → Option Int
  | [] => none
  | c :: cs => some (cs.foldl (fun acc x => if f x < f acc then x else acc) c)

/-- One example's update for one sampling round (TrainIMLE.py lines
110-121): the row's arg-min candidate replaces the stored (least loss, best
latent) pair exactly when its loss is strictly below the running least loss
(`change_idxs = losses < least_losses[start:stop]`). The state is the pair
`(least_losses[i], best_latents[i])`, with `⊤` the `float("inf")`
initialization. -/
def sel_step (f : Int → Rat) (s : WithTop Rat × Int) (cands : List Int) :
    WithTop Rat × Int :=
  match first_min f cands with
  | none => s
  | some c => if ((f c : Rat) : WithTop Rat) < s.1 then (((f c : Rat) : WithTop Rat), c) else s

/-- One example's Selection State after a sequence of sampling rounds,
starting from infinite least loss and the example's initial placeholder
latent `b0` (TrainIMLE.py lines 73-77). -/
def sel_rounds (f : Int → Rat) (b0 : Int) (rounds : List (List Int)) :
    WithTop Rat × Int :=
  rounds.foldl (sel_step f) ((⊤ : WithTop Rat), b0)

theorem sel_step_fst_le (f : Int → Rat) (s : WithTop Rat × Int)
    (cands : List Int) : (sel_step f s cands).1 ≤ s.1 := by
  unfold sel_step
  cases hfm : first_min f cands with
  | none => exact le_refl s.1
  | some c =>
      by_cases hlt : ((f c : Rat) : WithTop Rat) < s.1
      · simp only [hlt, if_pos]
        exact le_of_lt hlt
      · simp only [hlt, if_neg, not_false_iff]
        exact le_refl s.1

theorem sel_step_loss_of_best (f : Int → Rat) (s : WithTop Rat × Int)
    (cands : List Int)
    (hs : s.1 ≠ ⊤ → s.1 = ((f s.2 : Rat) : WithTop Rat)) :
    (sel_step f s cands).1 ≠ ⊤ →
      (sel_step f s cands).1 = ((f (sel_step f s cands).2 : Rat) : WithTop Rat) := by
  unfold sel_step
  cases hfm : first_min f cands with
  | none => exact hs
  | some c =>
      by_cases hlt : ((f c : Rat) : WithTop Rat) < s.1
      · simp only [hlt, if_pos]
        intro _
        trivial
      · simp only [hlt, if_neg, not_false_iff]
        exact hs

theorem sel_rounds_loss_of_best (f : Int → Rat) (b0 : Int)
    (rounds : List (List Int)) :
    (sel_rounds f b0 rounds).1 ≠ ⊤ →
      (sel_rounds f b0 rounds).1 = ((f (sel_rounds f b0 rounds).2 : Rat) : WithTop Rat) := by
  unfold sel_rounds
  have key : ∀ (rs : List (List Int)) (s : WithTop Rat × Int),
      (s.1 ≠ ⊤ → s.1 = ((f s.2 : Rat) : WithTop Rat)) →
      ((rs.foldl (sel_step f) s).1 ≠ ⊤ →
        (rs.foldl (sel_step f) s).1 = ((f (rs.foldl (sel_step f) s).2 : Rat) : WithTop Rat)) := by
    intro rs
    induction rs with
    | nil => intro s hs; exact hs
    | cons r rs ih =>
        intro s hs
        exact ih (sel_step f s r) (sel_step_loss_of_best f s r hs)
  exact key rounds ((⊤ : WithTop Rat), b0) (fun h => absurd rfl h)

/-- C2: for every example and every run of sampling rounds, the tracked
minimum loss starts at `+inf`, never increases from one round to the next,
equals the loss of the stored best latent as soon as it is set (not `⊤`),
and a round whose best candidate does not strictly beat the running minimum
leaves both the stored latent and the stored loss unchanged (ties keep the
earlier-found candidate). -/
theorem candidate_selector_invariants (f : Int → Rat) (b0 : Int)
    (rounds : List (List Int)) (r : List Int) :
    (sel_rounds f b0 []).1 = ⊤ ∧
    (sel_rounds f b0 (rounds ++ [r])).1 ≤ (sel_rounds f b0 rounds).1 ∧
    ((sel_rounds f b0 rounds).1 ≠ ⊤ →
      (sel_rounds f b0 rounds).1 = ((f (sel_rounds f b0 rounds).2 : Rat) : WithTop Rat)) ∧
    (∀ c, first_min f r = some c →
      ¬ (((f c : Rat) : WithTop Rat) < (sel_rounds f b0 rounds).1) →
      sel_rounds f b0 (rounds ++ [r]) = sel_rounds f b0 rounds) := by
  have happ : sel_rounds f b0 (rounds ++ [r]) =
      sel_step f (sel_rounds f b0 rounds) r := by
    unfold sel_rounds
    rw [List.foldl_append]
    rfl
  refine ⟨rfl, ?_, sel_rounds_loss_of_best f b0 rounds, ?_⟩
  · rw [happ]
    exact sel_step_fst_le f (sel_rounds f b0 rounds) r
  · intro c hc hnlt
    rw [happ]
    unfold sel_step
    rw [hc]
    simp only [hnlt, if_neg, not_false_iff]

/-- A concrete per-example loss function for witnesses: latent `2` scores
`1`, every other latent scores `2`. -/
def exLossW : Int → Rat := fun z => if z = 2 then 1 else 2

/-- Witness for C2 with the loss `exLossW`, no prior best, and rounds
`[[9], [2, 8]]` then `[7]`: after two rounds the tracked minimum is set and
equals the loss of the stored best latent `2`. -/
theorem candidate_selector_invariants_witness :
    (sel_rounds exLossW 0 [[9], [2, 8]]).1 ≠ ⊤ ∧
    (sel_rounds exLossW 0 [[9], [2, 8]]).1 =
      ((exLossW (sel_rounds exLossW 0 [[9], [2, 8]]).2 : Rat) : WithTop Rat) :=
  ⟨by decide,
   (candidate_selector_invariants exLossW 0 [[9], [2, 8]] [7]).2.2.1 (by decide)⟩

/-- An entry of a sub-batch's selection state: the example's fixed
`(image, mask_noise)` pair and its mutable `(least_loss, best_latent)`
pair. -/
def SelEntry : Type := (Int × Int) × (WithTop Rat × Int)

/-- Default entry used only for out-of-range `getD` reads. -/
def selEntryD : SelEntry := ((0, 0), ((⊤ : WithTop Rat), 0))

/-- One sampling round over a sub-batch (TrainIMLE.py lines 105-121): the
flat batch of `bs * sp` fresh latents `cands` is viewed as `bs` rows of
`sp` (`new_codes.view(bs, sp, ...)`), and the row starting at position
`j * sp` updates example `j` of the sub-batch, whose loss function is
`lossFn image mask_noise`. The index `j` threads the row offset. -/
def round_update (lossFn : Int → Int → Int → Rat) (cands : List Int)
    (sp : Nat) : Nat → List SelEntry → List SelEntry
  | _, [] => []
  | j, e :: es =>
      (e.1, sel_step (lossFn e.1.1 e.1.2) e.2 ((cands.drop (j * sp)).take sp)) ::
        round_update lossFn cands sp (j + 1) es

/-- The `ns // sp` sampling rounds over one sub-batch (TrainIMLE.py lines
100-121); `draw r` is the flat batch of latents sampled in round `r`. -/
def process_chunk (lossFn : Int → Int → Int → Rat) (draw : Nat → List Int)
    (num_rounds sp : Nat) (st : List SelEntry) : List SelEntry :=
  (List.range num_rounds).foldl (fun s r => round_update lossFn (draw r) sp 0 s) st

/-- The initial selection state of a sub-batch of `(image, mask_noise,
initial_latent)` triples: least loss `float("inf")`, best latent the
placeholder drawn at the start (TrainIMLE.py lines 73-78). -/
def init_chunk_state (c : List (Int × Int × Int)) : List SelEntry :=
  c.map (fun t => ((t.1, t.2.1), ((⊤ : WithTop Rat), t.2.2)))

/-- All sub-batches in loader order (TrainIMLE.py lines 88-121); the first
argument of `draw` is the sub-batch index `idx`, threaded as `k`. -/
def process_chunks (lossFn : Int → Int → Int → Rat)
    (draw : Nat → Nat → List Int) (num_rounds sp : Nat) :
    Nat → List (List (Int × Int × Int)) → List (List SelEntry)
  | _, [] => []
  | k, c :: cs =>
      process_chunk lossFn (draw k) num_rounds sp (init_chunk_state c) ::
        process_chunks lossFn draw num_rounds sp (k + 1) cs

/-- `ImageLatentDataset` (TrainIMLE.py lines 34-53). -/
structure ImageLatentDataset where
  images : List Int
  mask_noises : List Int
  latents : List Int

/-- `__len__` (TrainIMLE.py line 50). -/
def ImageLatentDataset.len (d : ImageLatentDataset) : Nat := d.images.length

/-- `__getitem__` (TrainIMLE.py lines 52-53). -/
def ImageLatentDataset.getItem (d : ImageLatentDataset) (i : Nat) :
    Int × Int × Int :=
  (d.images.getD i 0, d.mask_noises.getD i 0, d.latents.getD i 0)

/-- `get_image_latent_dataset` (TrainIMLE.py lines 62-126). `images` is the
sampled example subset, `mask_noise` and `best_latents0` are the mask
noises and placeholder latents drawn once at the start, `lossFn image
mask_noise latent` is the model's per-replica loss, and `draw idx r` is the
flat latent batch sampled for sub-batch `idx` in round `r`. The dataset
packs the concatenated loader batches (`all_images`), the untouched
`mask_noise`, and the per-chunk best latents. -/
def get_image_latent_dataset (images mask_noise best_latents0 : List Int)
    (lossFn : Int → Int → Int → Rat) (draw : Nat → Nat → List Int)
    (ns sp code_bs : Nat) : ImageLatentDataset :=
  let triples := images.zip (mask_noise.zip best_latents0)
  let chunks := chunksOf code_bs triples
  let sel := process_chunks lossFn draw (ns / sp) sp 0 chunks
  { images := (chunks.map (List.map (fun t => t.1))).flatten,
    mask_noises := mask_noise,
    latents := (sel.map (List.map (fun e => e.2.2))).flatten }

/-- The candidates example `i` sees in round `r`: its `sp`-wide row of the
flat batch drawn for its sub-batch `i / code_bs`, at row offset
`(i % code_bs) * sp`. -/
def cands_for (draw : Nat → Nat → List Int) (code_bs sp : Nat)
    (i r : Nat) : List Int :=
  ((draw (i / code_bs) r).drop (i % code_bs * sp)).take sp

/-- The per-example result of candidate selection: the best latent example
`i` ends up with after its `ns // sp` rounds, all evaluated against the
single mask noise `mask_noise[i]` drawn at the start. -/
def best_latent_for (images mask_noise best_latents0 : List Int)
    (lossFn : Int → Int → Int → Rat) (draw : Nat → Nat → List Int)
    (ns sp code_bs : Nat) (i : Nat) : Int :=
  (sel_rounds (lossFn (images.getD i 0) (mask_noise.getD i 0))
    (best_latents0.getD i 0)
    ((List.range (ns / sp)).map (cands_for draw code_bs sp i))).2

theorem getD_map_of_lt (g : α → β) (l : List α) (i : Nat) (d : α) (e : β)
    (h : i < l.length) : (l.map g).getD i e = g (l.getD i d) := by
  induction l generalizing i with
  | nil => simp at h
  | cons a t ih =>
      cases i with
      | zero => rfl
      | succ j =>
          simp only [List.length_cons] at h
          simpa using ih j (by omega)

theorem round_update_length (lossFn : Int → Int → Int → Rat) (cands : List Int)
    (sp : Nat) : ∀ (j : Nat) (st : List SelEntry),
    (round_update lossFn cands sp j st).length = st.length := by
  intro j st
  induction st generalizing j with
  | nil => rfl
  | cons e es ih => simpa [round_update] using ih (j + 1)

theorem round_update_getD (lossFn : Int → Int → Int → Rat) (cands : List Int)
    (sp : Nat) : ∀ (st : List SelEntry) (j i : Nat), i < st.length →
    (round_update lossFn cands sp j st).getD i selEntryD =
      ((st.getD i selEntryD).1,
        sel_step (lossFn (st.getD i selEntryD).1.1 (st.getD i selEntryD).1.2)
          (st.getD i selEntryD).2 ((cands.drop ((j + i) * sp)).take sp)) := by
  intro st
  induction st with
  | nil => intro j i hi; simp at hi
  | cons e es ih =>
      intro j i hi
      cases i with
      | zero => simp [round_update]
      | succ m =>
          simp only [List.length_cons] at hi
          have := ih (j + 1) m (by omega)
          simp only [round_update, List.getD_cons_succ]
          rw [this, show (j + 1) + m = j + (m + 1) from by omega]

theorem process_chunk_zero (lossFn : Int → Int → Int → Rat)
    (dr : Nat → List Int) (sp : Nat) (st : List SelEntry) :
    process_chunk lossFn dr 0 sp st = st := rfl

theorem process_chunk_succ (lossFn : Int → Int → Int → Rat)
    (dr : Nat → List Int) (n sp : Nat) (st : List SelEntry) :
    process_chunk lossFn dr (n + 1) sp st =
      round_update lossFn (dr n) sp 0 (process_chunk lossFn dr n sp st) := by
  unfold process_chunk
  rw [List.range_succ, List.foldl_append]
  rfl

theorem process_chunk_length (lossFn : Int → Int → Int → Rat)
    (dr : Nat → List Int) (n sp : Nat) (st : List SelEntry) :
    (process_chunk lossFn dr n sp st).length = st.length := by
  induction n with
  | zero => rfl
  | succ m ih =>
      rw [process_chunk_succ, round_update_length]
      exact ih

/-- Pointwise view of a sub-batch's rounds: entry `i` of the processed
sub-batch keeps its `(image, mask_noise)` pair and folds its own `sp`-wide
rows through `sel_step` with its own fixed loss function. -/
theorem process_chunk_getD (lossFn : Int → Int → Int → Rat)
    (dr : Nat → List Int) (sp : Nat) :
    ∀ (n : Nat) (st : List SelEntry) (i : Nat), i < st.length →
    (process_chunk lossFn dr n sp st).getD i selEntryD =
      ((st.getD i selEntryD).1,
        ((List.range n).map (fun r => ((dr r).drop (i * sp)).take sp)).foldl
          (sel_step (lossFn (st.getD i selEntryD).1.1 (st.getD i selEntryD).1.2))
          (st.getD i selEntryD).2) := by
  intro n
  induction n with
  | zero => intro st i hi; rfl
  | succ m ih =>
      intro st i hi
      rw [process_chunk_succ]
      have hlen : i < (process_chunk lossFn dr m sp st).length := by
        rw [process_chunk_length]; exact hi
      rw [round_update_getD lossFn (dr m) sp _ 0 i hlen, ih st i hi]
      rw [List.range_succ, List.map_append, List.foldl_append]
      simp only [Nat.zero_add, List.map_cons, List.map_nil, List.foldl_cons,
        List.foldl_nil]

/-- Global pointwise view of candidate selection: after chunking into
sub-batches of `code_bs` and running all rounds, the best latent recorded
at global index `i` is the per-example fold of example `i`'s own candidate
rows, with its own image and its single start-of-selection mask noise. -/
theorem process_chunks_latents_getD (lossFn : Int → Int → Int → Rat)
    (draw : Nat → Nat → List Int) (n sp cbs : Nat) (hcbs : 0 < cbs)
    (l : List (Int × Int × Int)) (k i : Nat) (hi : i < l.length) :
    ((process_chunks lossFn draw n sp k (chunksOf cbs l)).map
        (List.map (fun e => e.2.2))).flatten.getD i 0 =
      (sel_rounds (lossFn (l.getD i (0, (0, 0))).1 (l.getD i (0, (0, 0))).2.1)
        ((l.getD i (0, (0, 0))).2.2)
        ((List.range n).map
          (fun r => ((draw (k + i / cbs) r).drop (i % cbs * sp)).take sp))).2 := by
  have hl : l ≠ [] := by
    intro h
    subst h
    simp at hi
  rw [chunksOf_cons cbs l hcbs hl]
  simp only [process_chunks, List.map_cons, List.flatten_cons]
  have hpcl : (List.map (fun e => e.2.2)
      (process_chunk lossFn (draw k) n sp (init_chunk_state (l.take cbs)))).length =
      min cbs l.length := by
    rw [List.length_map, process_chunk_length]
    unfold init_chunk_state
    rw [List.length_map, List.length_take]
  by_cases hsmall : i < cbs
  · have hlt : i < min cbs l.length := by omega
    rw [getD_append_left _ _ i 0 (by rw [hpcl]; exact hlt)]
    rw [getD_map_of_lt (fun e => e.2.2) _ i selEntryD 0
      (by rw [process_chunk_length]; unfold init_chunk_state;
          rw [List.length_map, List.length_take]; exact hlt)]
    rw [process_chunk_getD lossFn (draw k) sp n (init_chunk_state (l.take cbs)) i
      (by unfold init_chunk_state; rw [List.length_map, List.length_take]; exact hlt)]
    have hinit : (init_chunk_state (l.take cbs)).getD i selEntryD =
        (((l.getD i (0, (0, 0))).1, (l.getD i (0, (0, 0))).2.1),
          ((⊤ : WithTop Rat), (l.getD i (0, (0, 0))).2.2)) := by
      unfold init_chunk_state
      rw [getD_map_of_lt _ _ i (0, (0, 0)) selEntryD
        (by rw [List.length_take]; exact hlt)]
      rw [getD_take l cbs i _ hsmall]
    rw [hinit, Nat.div_eq_of_lt hsmall, Nat.mod_eq_of_lt hsmall, Nat.add_zero]
    rfl
  · push_neg at hsmall
    have hmin : min cbs l.length = cbs := by omega
    rw [getD_append_right _ _ i 0 (by rw [hpcl]; omega)]
    rw [hpcl, hmin]
    have hrec := process_chunks_latents_getD lossFn draw n sp cbs hcbs
      (l.drop cbs) (k + 1) (i - cbs) (by rw [List.length_drop]; omega)
    rw [hrec, getD_drop l cbs (i - cbs) _,
      show cbs + (i - cbs) = i from by omega,
      Nat.mod_eq_sub_mod hsmall, Nat.div_eq_sub_div hcbs hsmall,
      show k + ((i - cbs) / cbs + 1) = (k + 1) + (i - cbs) / cbs from by omega]
termination_by l.length
decreasing_by
  rw [List.length_drop]
  omega

/-- C4: the mask noise sampled once at the start of selection is the frame:
the returned dataset's `mask_noises` is exactly the initial `mask_noise`
tensor, and the best latent of every example `i` is produced by rounds that
all evaluate against the same fixed slice `mask_noise[i]` of that initial
tensor (visible in `best_latent_for`, whose loss function fixes
`mask_noise.getD i 0` across every round). -/
theorem mask_noise_sampled_once (images mask_noise best_latents0 : List Int)
    (lossFn : Int → Int → Int → Rat) (draw : Nat → Nat → List Int)
    (ns sp code_bs : Nat) (hcbs : 0 < code_bs)
    (hmn : mask_noise.length = images.length)
    (hb0 : best_latents0.length = images.length) :
    (get_image_latent_dataset images mask_noise best_latents0 lossFn draw
        ns sp code_bs).mask_noises = mask_noise ∧
    ∀ i, i < images.length →
      (get_image_latent_dataset images mask_noise best_latents0 lossFn draw
          ns sp code_bs).latents.getD i 0 =
        best_latent_for images mask_noise best_latents0 lossFn draw
          ns sp code_bs i := by
  constructor
  · rfl
  · intro i hi
    have hlen : i < (images.zip (mask_noise.zip best_latents0)).length := by
      rw [List.length_zip, List.length_zip, hmn, hb0]
      simpa using hi
    have hkey := process_chunks_latents_getD lossFn draw (ns / sp) sp code_bs
      hcbs (images.zip (mask_noise.zip best_latents0)) 0 i hlen
    have htr := getD_zip_zip images mask_noise best_latents0 i hi hmn hb0
    show ((process_chunks lossFn draw (ns / sp) sp 0
        (chunksOf code_bs (images.zip (mask_noise.zip best_latents0)))).map
        (List.map (fun e => e.2.2))).flatten.getD i 0 = _
    rw [hkey, htr]
    unfold best_latent_for cands_for
    rw [Nat.zero_add]

/-- A concrete selection loss for witnesses, constant in the image and
mask noise: latent `2` scores `1`, everything else `2`. -/
def gildLossW : Int → Int → Int → Rat := fun _ _ z => if z = 2 then 1 else 2

/-- A concrete latent draw for witnesses: every sub-batch and round samples
the flat batch `[2, 8, 9, 7]`. -/
def drawW : Nat → Nat → List Int := fun _ _ => [2, 8, 9, 7]

/-- Witness for C4 on three examples with `ns = sp = code_bs = 2`: the
returned mask noises equal the initial ones and example 1's latent is its
per-example selection result. -/
theorem mask_noise_sampled_once_witness :
    (get_image_latent_dataset [10, 20, 30] [1, 2, 3] [0, 0, 0] gildLossW drawW
        2 2 2).mask_noises = [1, 2, 3] ∧
    (get_image_latent_dataset [10, 20, 30] [1, 2, 3] [0, 0, 0] gildLossW drawW
        2 2 2).latents.getD 1 0 =
      best_latent_for [10, 20, 30] [1, 2, 3] [0, 0, 0] gildLossW drawW 2 2 2 1 := by
  have h := mask_noise_sampled_once [10, 20, 30] [1, 2, 3] [0, 0, 0] gildLossW
    drawW 2 2 2 (by decide) (by decide) (by decide)
  exact ⟨h.1, h.2 1 (by decide)⟩

/-- C5: the Derived Dataset has exactly one element per input example, and
its `i`-th element is the triple (image `i`, mask noise `i`, best latent of
example `i`), in input order. -/
theorem derived_dataset_contents (images mask_noise best_latents0 : List Int)
    (lossFn : Int → Int → Int → Rat) (draw : Nat → Nat → List Int)
    (ns sp code_bs : Nat) (hcbs : 0 < code_bs)
    (hmn : mask_noise.length = images.length)
    (hb0 : best_latents0.length = images.length) :
    (get_image_latent_dataset images mask_noise best_latents0 lossFn draw
        ns sp code_bs).len = images.length ∧
    ∀ i, i < images.length →
      (get_image_latent_dataset images mask_noise best_latents0 lossFn draw
          ns sp code_bs).getItem i =
        (images.getD i 0, mask_noise.getD i 0,
          best_latent_for images mask_noise best_latents0 lossFn draw
            ns sp code_bs i) := by
  have himg : (get_image_latent_dataset images mask_noise best_latents0 lossFn
      draw ns sp code_bs).images = images := by
    show ((chunksOf code_bs (images.zip (mask_noise.zip best_latents0))).map
        (List.map (fun t => t.1))).flatten = images
    rw [chunksOf_map_flatten code_bs hcbs]
    show (images.zip (mask_noise.zip best_latents0)).map Prod.fst = images
    exact List.map_fst_zip images (mask_noise.zip best_latents0)
      (by rw [List.length_zip, hmn, hb0]; simp)
  constructor
  · unfold ImageLatentDataset.len
    rw [himg]
  · intro i hi
    have hlen : i < (images.zip (mask_noise.zip best_latents0)).length := by
      rw [List.length_zip, List.length_zip, hmn, hb0]
      simpa using hi
    have hkey := process_chunks_latents_getD lossFn draw (ns / sp) sp code_bs
      hcbs (images.zip (mask_noise.zip best_latents0)) 0 i hlen
    have htr := getD_zip_zip images mask_noise best_latents0 i hi hmn hb0
    unfold ImageLatentDataset.getItem
    rw [himg]
    have hlat : (get_image_latent_dataset images mask_noise best_latents0
        lossFn draw ns sp code_bs).latents.getD i 0 =
        best_latent_for images mask_noise best_latents0 lossFn draw
          ns sp code_bs i := by
      show ((process_chunks lossFn draw (ns / sp) sp 0
          (chunksOf code_bs (images.zip (mask_noise.zip best_latents0)))).map
          (List.map (fun e => e.2.2))).flatten.getD i 0 = _
      rw [hkey, htr]
      unfold best_latent_for cands_for
      rw [Nat.zero_add]
    rw [hlat]
    rfl

/-- Witness for C5 at the same concrete three-example instance: the dataset
has three elements and element 2 is the triple for input example 2. -/
theorem derived_dataset_contents_witness :
    (get_image_latent_dataset [10, 20, 30] [1, 2, 3] [0, 0, 0] gildLossW drawW
        2 2 2).len = 3 ∧
    (get_image_latent_dataset [10, 20, 30] [1, 2, 3] [0, 0, 0] gildLossW drawW
        2 2 2).getItem 2 =
      (30, 3, best_latent_for [10, 20, 30] [1, 2, 3] [0, 0, 0] gildLossW drawW
        2 2 2 2) := by
  have h := derived_dataset_contents [10, 20, 30] [1, 2, 3] [0, 0, 0] gildLossW
    drawW 2 2 2 (by decide) (by decide) (by decide)
  exact ⟨h.1, h.2 2 (by decide)⟩

/- ===================== C3: forward-evaluation counts ===================== -/

/-- The number of sampling rounds each sub-batch undergoes:
`range(args.ns // args.sp)` (TrainIMLE.py line 100). -/
def num_sampling_rounds (ns sp : Nat) : Nat := ns / sp

/-- Per-candidate forward evaluations in one round over a sub-batch of size
`bs`: the model is called once on `bs * sp` replicas and the losses are
viewed as `(bs, sp)` (TrainIMLE.py lines 105-110). -/
def forward_evals_per_round (bs sp : Nat) : Nat := bs * sp

/-- Total per-candidate forward evaluations of the selection stage over `B`
examples: for each loader sub-batch, `ns // sp` rounds of `bs * sp`
replicas each. -/
def total_forward_evals (B code_bs ns sp : Nat) : Nat :=
  ((chunksOf code_bs (List.range B)).map
    (fun c => num_sampling_rounds ns sp * forward_evals_per_round c.length sp)).sum

theorem chunksOf_length_sum (bs : Nat) (hbs : 0 < bs) (l : List α) :
    ((chunksOf bs l).map List.length).sum = l.length := by
  rw [← List.length_flatten, chunksOf_flatten bs hbs]

theorem sum_map_rounds (A B : Nat) (L : List (List α)) :
    (L.map (fun c => A * (c.length * B))).sum = A * B * (L.map List.length).sum := by
  induction L with
  | nil => rfl
  | cons c cs ih =>
      simp only [List.map_cons, List.sum_cons, ih]
      ring

/-- C3: each sub-batch undergoes exactly `ns // sp` rounds of `bs * sp`
replica evaluations, so over `B` examples the stage performs
`B * (ns // sp) * sp` forward evaluations; when `sp` divides `ns` this is
exactly `B * ns`, and in general it is `B * (ns - ns % sp)` — the trailing
`ns % sp` candidates per example are never sampled or evaluated. -/
theorem sampling_forward_eval_count (B code_bs ns sp : Nat)
    (hcbs : 0 < code_bs) (hsp : 0 < sp) :
    total_forward_evals B code_bs ns sp = B * (num_sampling_rounds ns sp * sp) ∧
    total_forward_evals B code_bs ns sp = B * (ns - ns % sp) ∧
    (sp ∣ ns → total_forward_evals B code_bs ns sp = B * ns) ∧
    num_sampling_rounds ns sp * sp = ns - ns % sp := by
  have h1 : total_forward_evals B code_bs ns sp =
      B * (num_sampling_rounds ns sp * sp) := by
    unfold total_forward_evals forward_evals_per_round
    rw [sum_map_rounds, chunksOf_length_sum code_bs hcbs, List.length_range]
    ring
  have h4 : num_sampling_rounds ns sp * sp = ns - ns % sp := by
    unfold num_sampling_rounds
    have hdm : ns / sp * sp + ns % sp = ns := by
      rw [Nat.mul_comm]
      exact Nat.div_add_mod ns sp
    omega
  refine ⟨h1, by rw [h1, h4], ?_, h4⟩
  intro hdvd
  have hmod : ns % sp = 0 := Nat.dvd_iff_mod_eq_zero.mp hdvd
  rw [h1, h4, hmod, Nat.sub_zero]

/-- Witness for C3 at `B = 5`, `code_bs = 2`: with `ns = 6`, `sp = 3`
(dividing) the stage performs exactly `5 * 6` evaluations; with `ns = 7`,
`sp = 3` it performs `5 * (7 - 7 % 3)`, dropping the trailing candidate. -/
theorem sampling_forward_eval_count_witness :
    total_forward_evals 5 2 6 3 = 5 * 6 ∧
    total_forward_evals 5 2 7 3 = 5 * (7 - 7 % 3) :=
  ⟨(sampling_forward_eval_count 5 2 6 3 (by decide) (by decide)).2.2.1 (by decide),
   (sampling_forward_eval_count 5 2 7 3 (by decide) (by decide)).2.1⟩

/- ===================== C8: validator ===================== -/

/-- Sum of the model's per-replica losses over the `z_per_ex` replicas of
one example (the batch in `get_reconstruction_images_loss` holds
`len(x) * z_per_ex` replicas; `rl x j` is the loss of replica `j` of
example `x`). -/
def ex_replica_loss_sum (rl : Int → Nat → Rat) (z : Nat) (x : Int) : Rat :=
  ((List.range z).map (rl x)).sum

/-- `loss.mean()` for one loader batch `c` (TrainIMLE.py lines 164-169):
the mean over the batch's `len(c) * z_per_ex` replica losses. -/
def batch_mean_loss (rl : Int → Nat → Rat) (z : Nat) (c : List Int) : Rat :=
  (c.map (ex_replica_loss_sum rl z)).sum / ((c.length * z : Nat) : Rat)

/-- One example's mean reconstruction loss over its `z_per_ex` replicas. -/
def ex_mean_loss (rl : Int → Nat → Rat) (z : Nat) (x : Int) : Rat :=
  ex_replica_loss_sum rl z x / ((z : Nat) : Rat)

/-- The loss returned by `get_reconstruction_images_loss` (TrainIMLE.py
lines 154-181): `total_loss += loss.mean() * len(x)` accumulated over the
loader's batches of size `code_bs`, then `total_loss.item() / len(dataset)`. -/
def get_reconstruction_loss (rl : Int → Nat → Rat) (z code_bs : Nat)
    (dataset : List Int) : Rat :=
  ((chunksOf code_bs dataset).map
      (fun c => batch_mean_loss rl z c * ((c.length : Nat) : Rat))).sum /
    ((dataset.length : Nat) : Rat)

/-- The `z_per_ex` reconstructions of one example; `recon x j` is the
model's `j`-th prediction for example `x`. -/
def reconstructions_of (recon : Int → Nat → Int) (z : Nat) (x : Int) :
    List Int :=
  (List.range z).map (recon x)

/-- `torch.cat(preds, dim=0)` over the loader batches: each batch
contributes its examples' replica predictions in order (TrainIMLE.py lines
171, 176). -/
def recon_preds (recon : Int → Nat → Int) (z code_bs : Nat)
    (dataset : List Int) : List Int :=
  ((chunksOf code_bs dataset).map
      (fun c => c.flatMap (reconstructions_of recon z))).flatten

/-- `image_grid` (TrainIMLE.py lines 170, 174-179): the de-normalized
originals concatenated over batches, the predictions viewed as
`(len(dataset), z_per_ex, ...)`, and one row `[image] + [p for p in pred]`
per example. -/
def image_grid (recon : Int → Nat → Int) (dn : Int → Int) (z code_bs : Nat)
    (dataset : List Int) : List (List Int) :=
  (((chunksOf code_bs dataset).map (List.map dn)).flatten.zip
      (chunksOf z (recon_preds recon z code_bs dataset))).map
    (fun p => p.1 :: p.2)

/-- `get_reconstruction_images_loss` (TrainIMLE.py lines 137-181). -/
def get_reconstruction_images_loss (rl : Int → Nat → Rat)
    (recon : Int → Nat → Int) (dn : Int → Int) (z code_bs : Nat)
    (dataset : List Int) : Rat × List (List Int) :=
  (get_reconstruction_loss rl z code_bs dataset,
   image_grid recon dn z code_bs dataset)

/-- `[int(idx) for idx in torch.linspace(0, n - 1, k)]` under exact
arithmetic (TrainIMLE.py lines 187-188): `k` evenly spaced indices from
`0` to `n - 1`. -/
def evenly_spaced_idxs (n k : Nat) : List Nat :=
  (List.range k).map (fun j => j * (n - 1) / (k - 1))

/-- `validate` (TrainIMLE.py lines 128-198): the held-out loss over the
random 512-example subset `sample512` of `data_val`, and the two grids
over evenly spaced indices of `data_tr` and `data_val`. -/
def validate (rl : Int → Nat → Rat) (recon : Int → Nat → Int)
    (dn : Int → Int) (z code_bs : Nat) (data_tr data_val : List Int)
    (sample512 : List Nat) (k_tr k_te : Nat) :
    Rat × List (List Int) × List (List Int) :=
  ((get_reconstruction_images_loss rl recon dn z code_bs
      (sample512.map (fun i => data_val.getD i 0))).1,
   (get_reconstruction_images_loss rl recon dn z code_bs
      ((evenly_spaced_idxs data_tr.length k_tr).map
        (fun i => data_tr.getD i 0))).2,
   (get_reconstruction_images_loss rl recon dn z code_bs
      ((evenly_spaced_idxs data_val.length k_te).map
        (fun i => data_val.getD i 0))).2)

theorem sum_map_div (g : α → Rat) (b : Rat) (l : List α) :
    (l.map (fun x => g x / b)).sum = (l.map g).sum / b := by
  induction l with
  | nil => simp
  | cons a t ih =>
      simp only [List.map_cons, List.sum_cons, ih]
      rw [add_div]

theorem batch_term (rl : Int → Nat → Rat) (z : Nat) (c : List Int)
    (hz : 0 < z) (hc : c ≠ []) :
    batch_mean_loss rl z c * ((c.length : Nat) : Rat) =
      (c.map (ex_mean_loss rl z)).sum := by
  unfold batch_mean_loss ex_mean_loss
  rw [sum_map_div]
  have hm : ((c.length : Nat) : Rat) ≠ 0 := by
    rw [Nat.cast_ne_zero]
    simpa [List.length_eq_zero] using hc
  have hzq : ((z : Nat) : Rat) ≠ 0 := by
    rw [Nat.cast_ne_zero]
    omega
  push_cast
  field_simp
  ring

theorem weighted_chunk_sum (rl : Int → Nat → Rat) (z cbs : Nat)
    (hz : 0 < z) (hcbs : 0 < cbs) (l : List Int) :
    ((chunksOf cbs l).map
        (fun c => batch_mean_loss rl z c * ((c.length : Nat) : Rat))).sum =
      (l.map (ex_mean_loss rl z)).sum := by
  by_cases hl : l = []
  · subst hl
    rw [chunksOf_nil]
    rfl
  · rw [chunksOf_cons cbs l hcbs hl]
    have htake : l.take cbs ≠ [] := by
      intro h
      have hlen := congrArg List.length h
      rw [List.length_take, List.length_nil] at hlen
      have hlp : 0 < l.length := List.length_pos.mpr hl
      omega
    have ih := weighted_chunk_sum rl z cbs hz hcbs (l.drop cbs)
    simp only [List.map_cons, List.sum_cons, ih,
      batch_term rl z (l.take cbs) hz htake]
    conv_rhs => rw [← List.take_append_drop cbs l]
    rw [List.map_append, List.sum_append]
termination_by l.length
decreasing_by
  have hlp : 0 < l.length := List.length_pos.mpr hl
  rw [List.length_drop]
  omega

theorem flatten_map_flatMap (g : α → List β) (L : List (List α)) :
    (L.map (fun c => c.flatMap g)).flatten = L.flatten.flatMap g := by
  induction L with
  | nil => rfl
  | cons c cs ih =>
      simp only [List.map_cons, List.flatten_cons, List.flatMap_append, ih]

theorem chunksOf_flatMap_fixed (g : α → List β) (z : Nat) (hz : 0 < z)
    (hg : ∀ x, (g x).length = z) (S : List α) :
    chunksOf z (S.flatMap g) = S.map g := by
  induction S with
  | nil => simpa using chunksOf_nil z
  | cons a t ih =>
      have hcons : (a :: t).flatMap g = g a ++ t.flatMap g := by
        simp
      have hne : g a ++ t.flatMap g ≠ [] := by
        intro h
        have := congrArg List.length h
        rw [List.length_append, hg a] at this
        simp at this
        omega
      rw [hcons, chunksOf_cons z _ hz hne]
      rw [← hg a, List.take_left, List.drop_left, hg a, ih]
      rfl

theorem zip_map_rows (f : α → β) (g : α → List β) (S : List α) :
    ((S.map f).zip (S.map g)).map (fun p => p.1 :: p.2) =
      S.map (fun x => f x :: g x) := by
  induction S with
  | nil => rfl
  | cons a t ih => simpa using ih

theorem image_grid_rows (recon : Int → Nat → Int) (dn : Int → Int)
    (z cbs : Nat) (hz : 0 < z) (hcbs : 0 < cbs) (S : List Int) :
    image_grid recon dn z cbs S =
      S.map (fun x => dn x :: reconstructions_of recon z x) := by
  unfold image_grid recon_preds
  rw [chunksOf_map_flatten cbs hcbs, flatten_map_flatMap,
    chunksOf_flatten cbs hcbs,
    chunksOf_flatMap_fixed (reconstructions_of recon z) z hz
      (fun x => by unfold reconstructions_of; rw [List.length_map, List.length_range]),
    zip_map_rows]

theorem recon_loss_is_average (rl : Int → Nat → Rat) (z cbs : Nat)
    (hz : 0 < z) (hcbs : 0 < cbs) (S : List Int) :
    get_reconstruction_loss rl z cbs S =
      (S.map (ex_mean_loss rl z)).sum / ((S.length : Nat) : Rat) := by
  unfold get_reconstruction_loss
  rw [weighted_chunk_sum rl z cbs hz hcbs]

/-- C8: the Validator's held-out loss is the example-count-weighted average
batch loss over the random 512-example subset of the validation set —
which equals the plain average of the 512 chosen examples' mean
reconstruction losses — and its two grids have one row per evenly-spaced
example index of the training and validation splits, each row the
(de-normalized) original image followed by its `z_per_ex` reconstructions. -/
theorem validator_contract (rl : Int → Nat → Rat) (recon : Int → Nat → Int)
    (dn : Int → Int) (z cbs : Nat) (data_tr data_val : List Int)
    (sample512 : List Nat) (k_tr k_te : Nat)
    (hz : 0 < z) (hcbs : 0 < cbs) (h512 : sample512.length = 512) :
    (validate rl recon dn z cbs data_tr data_val sample512 k_tr k_te).1 =
      (sample512.map (fun i => ex_mean_loss rl z (data_val.getD i 0))).sum /
        (512 : Rat) ∧
    (validate rl recon dn z cbs data_tr data_val sample512 k_tr k_te).2.1 =
      (evenly_spaced_idxs data_tr.length k_tr).map
        (fun i => dn (data_tr.getD i 0) ::
          reconstructions_of recon z (data_tr.getD i 0)) ∧
    (validate rl recon dn z cbs data_tr data_val sample512 k_tr k_te).2.2 =
      (evenly_spaced_idxs data_val.length k_te).map
        (fun i => dn (data_val.getD i 0) ::
          reconstructions_of recon z (data_val.getD i 0)) := by
  refine ⟨?_, ?_, ?_⟩
  · show get_reconstruction_loss rl z cbs
        (sample512.map (fun i => data_val.getD i 0)) = _
    rw [recon_loss_is_average rl z cbs hz hcbs, List.length_map, h512,
      List.map_map]
    norm_num
    rfl
  · show image_grid recon dn z cbs
        ((evenly_spaced_idxs data_tr.length k_tr).map
          (fun i => data_tr.getD i 0)) = _
    rw [image_grid_rows recon dn z cbs hz hcbs, List.map_map]
    rfl
  · show image_grid recon dn z cbs
        ((evenly_spaced_idxs data_val.length k_te).map
          (fun i => data_val.getD i 0)) = _
    rw [image_grid_rows recon dn z cbs hz hcbs, List.map_map]
    rfl

/-- Concrete model functions for the validator witness: zero per-replica
loss, reconstruction `x + j`, identity de-normalization. -/
def valRlW : Int → Nat → Rat := fun _ _ => 0

def valReconW : Int → Nat → Int := fun x j => x + (j : Int)

def valDnW : Int → Int := fun x => x

/-- Witness for C8 on singleton splits, `z_per_ex = code_bs = 1` and a
512-index sample: the validator output satisfies the contract at this
concrete instance. -/
theorem validator_contract_witness :
    (validate valRlW valReconW valDnW 1 1 [5] [7] (List.replicate 512 0) 1 1).1 =
      ((List.replicate 512 0).map
        (fun i => ex_mean_loss valRlW 1 (List.getD [7] i 0))).sum / (512 : Rat) ∧
    (validate valRlW valReconW valDnW 1 1 [5] [7] (List.replicate 512 0) 1 1).2.1 =
      (evenly_spaced_idxs (List.length [5]) 1).map
        (fun i => valDnW (List.getD [5] i 0) ::
          reconstructions_of valReconW 1 (List.getD [5] i 0)) ∧
    (validate valRlW valReconW valDnW 1 1 [5] [7] (List.replicate 512 0) 1 1).2.2 =
      (evenly_spaced_idxs (List.length [7]) 1).map
        (fun i => valDnW (List.getD [7] i 0) ::
          reconstructions_of valReconW 1 (List.getD [7] i 0)) :=
  validator_contract valRlW valReconW valDnW 1 1 [5] [7] (List.replicate 512 0)
    1 1 (by decide) (by decide) (List.length_replicate 512 0)

/- ============ C9, C10: AdaIN / LocalAdaIN forward (Blocks.py) ============ -/

/-- `torch.repeat_interleave(x, c, dim=0)`: each row of `x` repeated `c`
times consecutively along the leading dimension. -/
def repeat_interleave (c : Nat) (l : List α) : List α :=
  l.flatMap (List.replicate c)

/-- The affine fusion shared by the two AdaIN forwards (Blocks.py lines
198-205 and 251-258): each mapped code is split into `z_mean = z[:, :c]`
and `z_std = z[:, c:]`, and the row result is `z_mean + x * (1 + z_std)`
elementwise. -/
def adaIN_combine (c : Nat) (zs xs : List (List Rat)) : List (List Rat) :=
  List.zipWith
    (fun z xr =>
      List.zipWith (fun m p => m + p) (z.take c)
        (List.zipWith (fun xe s => xe * (1 + s)) xr (z.drop c)))
    zs xs

/-- `AdaIN.forward` (Blocks.py lines 185-206). `mapping_net` is the
(normalizing) mapping network `self.model`, `get_latent_codes` the sampler
used when `latent_codes is None`, `c` the channel count `self.c`. -/
def adaIN_forward (mapping_net : List Rat → List Rat)
    (get_latent_codes : Nat → List (List Rat)) (c : Nat)
    (x : List (List Rat)) (latent_codes : Option (List (List Rat)))
    (codes_per_ex : Nat) (ignore_z : Bool) : List (List Rat) :=
  if ignore_z then repeat_interleave codes_per_ex x
  else
    let lc := match latent_codes with
      | none => get_latent_codes (x.length * codes_per_ex)
      | some l => l
    let zs := lc.map mapping_net
    adaIN_combine c zs (repeat_interleave (zs.length / x.length) x)

/-- Outcome of executing a Python method body: a value, or an uncaught
NameError on the given name. -/
inductive PyOutcome (α : Type) where
  | ok : α → PyOutcome α
  | nameError : String → PyOutcome α

/-- Name resolution for the free variables of `LocalAdaIN.forward`
(Blocks.py): the name `ignore_z` is not a parameter of the method and is
bound neither at class level nor at module level in Blocks.py, so looking
it up yields nothing. -/
def blocks_module_scope : String → Option Bool := fun _ => none

/-- `LocalAdaIN.forward` (Blocks.py lines 233-259) under Python name
resolution: the first statement evaluates the conditional `if ignore_z:`,
whose name lookup fails; otherwise the body would mirror `AdaIN.forward`
except that the `ignore_z` branch falls through instead of returning. -/
def localAdaIN_forward (mapping_net : List Rat → List Rat)
    (get_latent_codes : Nat → List (List Rat)) (c : Nat)
    (x : List (List Rat)) (latent_codes : Option (List (List Rat)))
    (codes_per_ex : Nat) : PyOutcome (List (List Rat)) :=
  match blocks_module_scope "ignore_z" with
  | none => PyOutcome.nameError "ignore_z"
  | some ignz =>
      let x1 := if ignz then repeat_interleave codes_per_ex x else x
      let lc := match latent_codes with
        | none => get_latent_codes (x1.length * codes_per_ex)
        | some l => l
      let zs := lc.map mapping_net
      PyOutcome.ok (adaIN_combine c zs (repeat_interleave (zs.length / x1.length) x1))

/-- C9: every call to `LocalAdaIN.forward`, whatever its arguments, hits
the undefined name `ignore_z` in its first conditional and raises a
NameError before computing anything. -/
theorem localAdaIN_forward_always_name_errors (mapping_net : List Rat → List Rat)
    (get_latent_codes : Nat → List (List Rat)) (c : Nat)
    (x : List (List Rat)) (latent_codes : Option (List (List Rat)))
    (codes_per_ex : Nat) :
    localAdaIN_forward mapping_net get_latent_codes c x latent_codes
      codes_per_ex = PyOutcome.nameError "ignore_z" := rfl

theorem getD_replicate (c i : Nat) (a d : α) (h : i < c) :
    (List.replicate c a).getD i d = a := by
  induction c generalizing i with
  | zero => omega
  | succ m ih =>
      cases i with
      | zero => rfl
      | succ j =>
          rw [List.replicate_succ, List.getD_cons_succ]
          exact ih j (by omega)

theorem repeat_interleave_length (c : Nat) (l : List α) :
    (repeat_interleave c l).length = l.length * c := by
  unfold repeat_interleave
  induction l with
  | nil => simp
  | cons a t ih =>
      simp only [List.flatMap_cons, List.length_append, List.length_replicate,
        ih, List.length_cons]
      ring

theorem repeat_interleave_getD (c : Nat) (hc : 0 < c) (l : List α) (i : Nat)
    (d : α) (hi : i < l.length * c) :
    (repeat_interleave c l).getD i d = l.getD (i / c) d := by
  induction l generalizing i with
  | nil => simp at hi
  | cons a t ih =>
      have hstep : repeat_interleave c (a :: t) =
          List.replicate c a ++ repeat_interleave c t := by
        unfold repeat_interleave
        simp
      rw [hstep]
      by_cases hsmall : i < c
      · rw [getD_append_left _ _ i d (by rw [List.length_replicate]; exact hsmall)]
        rw [getD_replicate c i a d hsmall, Nat.div_eq_of_lt hsmall]
        rfl
      · push_neg at hsmall
        rw [getD_append_right _ _ i d (by rw [List.length_replicate]; exact hsmall)]
        rw [List.length_replicate]
        have hbound : i - c < t.length * c := by
          rw [List.length_cons, Nat.succ_mul] at hi
          omega
        rw [ih (i - c) hbound, Nat.div_eq_sub_div hc hsmall]
        rfl

/-- C10: `AdaIN.forward` with `ignore_z=True` returns exactly
`repeat_interleave(x, codes_per_ex, dim=0)`: the leading dimension becomes
`len(x) * codes_per_ex`, element `i` of the output is element
`i // codes_per_ex` of `x` (each row repeated `codes_per_ex` times
consecutively), and the result does not depend on the latent codes, the
sampler, the mapping network or the channel count. -/
theorem adaIN_forward_ignore_z (mapping_net : List Rat → List Rat)
    (get_latent_codes : Nat → List (List Rat)) (c : Nat)
    (x : List (List Rat)) (latent_codes : Option (List (List Rat)))
    (codes_per_ex : Nat) (hcpe : 0 < codes_per_ex) :
    adaIN_forward mapping_net get_latent_codes c x latent_codes codes_per_ex
        true = repeat_interleave codes_per_ex x ∧
    (repeat_interleave codes_per_ex x).length = x.length * codes_per_ex ∧
    (∀ i, i < x.length * codes_per_ex →
      (repeat_interleave codes_per_ex x).getD i [] =
        x.getD (i / codes_per_ex) []) ∧
    (∀ (mn2 : List Rat → List Rat) (gl2 : Nat → List (List Rat)) (c2 : Nat)
        (lc2 : Option (List (List Rat))),
      adaIN_forward mapping_net get_latent_codes c x latent_codes codes_per_ex
          true = adaIN_forward mn2 gl2 c2 x lc2 codes_per_ex true) :=
  ⟨rfl, repeat_interleave_length codes_per_ex x,
   fun i hi => repeat_interleave_getD codes_per_ex hcpe x i [] hi,
   fun _ _ _ _ => rfl⟩

/-- Identity mapping network and empty sampler for the C10 witness. -/
def adaMnW : List Rat → List Rat := fun l => l

def adaGlW : Nat → List (List Rat) := fun _ => []

/-- Witness for C10 at `x = [[1], [2]]`, `codes_per_ex = 2`. -/
theorem adaIN_forward_ignore_z_witness :
    adaIN_forward adaMnW adaGlW 3 [[1], [2]] none 2 true =
        repeat_interleave 2 [[1], [2]] ∧
    (repeat_interleave 2 [([1] : List Rat), [2]]).length =
        (([[1], [2]] : List (List Rat)).length) * 2 ∧
    (∀ i, i < (([[1], [2]] : List (List Rat)).length) * 2 →
      (repeat_interleave 2 [([1] : List Rat), [2]]).getD i [] =
        ([([1] : List Rat), [2]]).getD (i / 2) []) ∧
    (∀ (mn2 : List Rat → List Rat) (gl2 : Nat → List (List Rat)) (c2 : Nat)
        (lc2 : Option (List (List Rat))),
      adaIN_forward adaMnW adaGlW 3 [[1], [2]] none 2 true =
        adaIN_forward mn2 gl2 c2 [[1], [2]] lc2 2 true) :=
  adaIN_forward_ignore_z adaMnW adaGlW 3 [[1], [2]] none 2 (by decide)
